import Mathlib

/-!
# A two-arena block allocator (`swap.cpp`, namespace `manager`)

Shallow embedding of the allocator of `src/swap.cpp`.

* Memory is one flat, byte-addressed space `Mem := Nat → Nat`; a cell holds a
  byte, every load reduces it `% 256`.
* Pointers and `uint64_t` values are naturals; every pointer or `uint64_t`
  operation of the source is followed by `% 2 ^ 64`.
* `header_t` is `{ uint8_t is_acquired; uint64_t size; }`.  On the LP64
  little-endian targets that provide `sbrk`/`mmap` it occupies 16 bytes:
  `is_acquired` at offset 0, seven bytes of padding, `size` at offsets 8..15,
  least significant byte first.  Stores to a header write the two members and
  leave the padding bytes as they are.
* The operating system is the current program break `brk` together with an
  oracle `os_grants brk increment` telling whether `sbrk(increment)` succeeds.
* The loop of `get_block` may fail to terminate when the cursor wraps around
  the address space, so it is driven by a fuel argument; `none` means that the
  fuel ran out before the loop finished.
-/

namespace manager

/-- Byte-addressed memory. -/
abbrev Mem := Nat → Nat

/-- The constant `invalid_memory`, that is `reinterpret_cast<void *>(-1)` (line 14). -/
def invalid_memory : Nat := 2 ^ 64 - 1

/-- The constant `swap_size` (line 19). -/
def swap_size : Nat := 1024

/-- The constant `header_size = sizeof(header_t)` (line 31). -/
def header_size : Nat := 16

/-- Read one byte. -/
def load8 (mem : Mem) (a : Nat) : Nat := mem a % 256

/-- Write one byte. -/
def store8 (mem : Mem) (a v : Nat) : Mem := fun x => if x = a then v % 256 else mem x

/-- Read a little-endian `uint64_t` stored at `a .. a + 7`. -/
def load64 (mem : Mem) (a : Nat) : Nat :=
  load8 mem a + 256 * (load8 mem (a + 1) + 256 * (load8 mem (a + 2) + 256 * (load8 mem (a + 3)
    + 256 * (load8 mem (a + 4) + 256 * (load8 mem (a + 5) + 256 * (load8 mem (a + 6)
    + 256 * load8 mem (a + 7)))))))

/-- Write a little-endian `uint64_t` at `a .. a + 7`. -/
def store64 (mem : Mem) (a v : Nat) : Mem := fun x =>
  if x = a then v % 256
  else if x = a + 1 then v / 256 % 256
  else if x = a + 2 then v / 65536 % 256
  else if x = a + 3 then v / 16777216 % 256
  else if x = a + 4 then v / 4294967296 % 256
  else if x = a + 5 then v / 1099511627776 % 256
  else if x = a + 6 then v / 281474976710656 % 256
  else if x = a + 7 then v / 72057594037927936 % 256
  else mem x

/-- The member `header->is_acquired` of the header at address `h`. -/
def is_acquired (mem : Mem) (h : Nat) : Nat := load8 mem h

/-- The member `header->size` of the header at address `h`. -/
def size_of (mem : Mem) (h : Nat) : Nat := load64 mem (h + 8)

/-- The placement `new (h) header_t { acquired, size }` (lines 92 and 108). -/
def write_header (mem : Mem) (h acquired size : Nat) : Mem :=
  store64 (store8 mem h acquired) (h + 8) size

/-- The allocator's globals (lines 16 to 24), the memory, and the operating system's break. -/
structure State where
  /-- Contents of the address space. -/
  mem : Mem
  /-- Global `memory_start`. -/
  memory_start : Nat
  /-- Global `memory_end`. -/
  memory_end : Nat
  /-- Global `swap_used`. -/
  swap_used : Nat
  /-- Global `swap_start`. -/
  swap_start : Nat
  /-- Global `swap_end`. -/
  swap_end : Nat
  /-- The program break kept by the operating system. -/
  brk : Nat
  /-- Whether the operating system grants `sbrk(increment)` at break `brk`. -/
  os_grants : Nat → Nat → Bool

/-- The template `increment` (lines 67 to 71): byte-wise pointer advance. -/
def increment (ptr delta : Nat) : Nat := (ptr + delta) % 2 ^ 64

/-- The library call `sbrk(increment)`: the old break on success, `invalid_memory` on refusal. -/
def sbrk (s : State) (incr : Nat) : Nat × State :=
  if s.os_grants s.brk incr then (s.brk, { s with brk := (s.brk + incr) % 2 ^ 64 })
  else (invalid_memory, s)

/-- The function `init_memory` (lines 33 to 46): both bounds of the primary arena are the
current break; `none` when `sbrk(0)` reports `invalid_memory`. -/
def init_memory (s : State) : Option State :=
  let memory_start := s.brk
  let memory_end := s.brk
  if memory_start = invalid_memory ∨ memory_end = invalid_memory then none
  else some { s with memory_start := memory_start, memory_end := memory_end }

/-- The function `init_swap` (lines 48 to 61): the backing file is `swap_size` zero bytes and
is mapped at the address `mapped` chosen by the operating system. -/
def init_swap (s : State) (mapped : Nat) : Option State :=
  let mem := fun x => if mapped ≤ x ∧ x < mapped + swap_size then 0 else s.mem x
  if mapped = invalid_memory then none
  else some { s with mem := mem, swap_end := mapped, swap_start := mapped }

/-- The loop of `get_block` (lines 74 to 82) started at `current`; the result is the returned
pointer (`0` is `nullptr`) and the memory left behind, `none` when the fuel runs out. -/
def get_block_loop : Nat → Mem → Nat → Nat → Nat → Option (Nat × Mem)
  | 0, _, _, _, _ => none
  | fuel + 1, mem, current, end_, block_size =>
    if current < end_ then
      if is_acquired mem current = 0 ∧ size_of mem current ≥ block_size then
        let mem1 := store8 mem current 1
        some (increment current ((header_size + size_of mem1 current) % 2 ^ 64), mem1)
      else
        get_block_loop fuel mem
          (increment (increment current (size_of mem current)) header_size) end_ block_size
    else some (0, mem)

/-- The function `get_block` (lines 72 to 83). -/
def get_block (fuel : Nat) (mem : Mem) (start end_ block_size : Nat) : Option (Nat × Mem) :=
  get_block_loop fuel mem start end_ block_size

/-- Lines 98 to 111 of `alloc`: search the swap arena, then carve from it. -/
def alloc_swap_path (fuel : Nat) (s : State) (size : Nat) : Option (Nat × State) :=
  match get_block fuel s.mem s.swap_start s.swap_end size with
  | none => none
  | some (block, mem1) =>
    let s1 := { s with mem := mem1 }
    if block ≠ 0 then some (block, s1)
    else if s1.swap_used ≥ swap_size then some (0, s1)
    else
      let new_header := s1.swap_end
      some (increment new_header header_size,
        { s1 with
          swap_end := increment s1.swap_end ((size + header_size) % 2 ^ 64)
          mem := write_header s1.mem new_header 1 size
          swap_used := (s1.swap_used + (header_size + size) % 2 ^ 64) % 2 ^ 64 })

/-- The function `alloc` (lines 85 to 112); `0` is `nullptr`. -/
def alloc (fuel : Nat) (s : State) (size : Nat) (force_swap : Bool) : Option (Nat × State) :=
  if !force_swap then
    match get_block fuel s.mem s.memory_start s.memory_end size with
    | none => none
    | some (block, mem1) =>
      let s1 := { s with mem := mem1 }
      if block ≠ 0 then some (block, s1)
      else
        let r := sbrk s1 ((size + header_size) % 2 ^ 64)
        let new_end := r.1
        let s2 := r.2
        if new_end ≠ invalid_memory then
          some (increment new_end header_size,
            { s2 with
              mem := write_header s2.mem new_end 1 size
              memory_end := increment new_end ((size + header_size) % 2 ^ 64) })
        else alloc_swap_path fuel s2 size
  else alloc_swap_path fuel s size

/-- The template `free` (lines 124 to 128); `-header_size` is `2 ^ 64 - header_size`. -/
def free (s : State) (memory : Nat) : State :=
  let header := increment memory (2 ^ 64 - header_size)
  { s with mem := store8 s.mem header 0 }

/-- The state at program start: zeroed globals and memory, the break at `brk`, and an
operating system that lets the break rise up to `limit`. -/
def boot (brk limit : Nat) : State :=
  { mem := fun _ => 0
    memory_start := 0
    memory_end := 0
    swap_used := 0
    swap_start := 0
    swap_end := 0
    brk := brk
    os_grants := fun b i => decide (b + i ≤ limit) }

/-- The state after `init_memory` and `init_swap` on a zeroed address space with the break at
`brk`, the swap file mapped at `mapped`, and the break allowed to rise up to `limit`. -/
def fresh (brk mapped limit : Nat) : State :=
  { mem := fun _ => 0
    memory_start := brk
    memory_end := brk
    swap_used := 0
    swap_start := mapped
    swap_end := mapped
    brk := brk
    os_grants := fun b i => decide (b + i ≤ limit) }

/-- Chain predicate `is_chain mem a e hs`: walking from `a` in steps of `header_size + size`
(the size taken from the header under the cursor) meets exactly the header addresses `hs`, in
this order, and then stands on `e`.  An arena `[start, end)` is a gap-free block layout when
`is_chain mem start end hs = true` for some `hs`. -/
def is_chain (mem : Mem) : Nat → Nat → List Nat → Bool
  | a, e, [] => decide (a = e)
  | a, e, h :: hs => decide (h = a) && is_chain mem (a + header_size + size_of mem a) e hs

/-- The first header of `hs` whose block is free and records at least `n` bytes. -/
def first_fit (mem : Mem) (n : Nat) (hs : List Nat) : Option Nat :=
  hs.find? (fun h => decide (is_acquired mem h = 0 ∧ size_of mem h ≥ n))

/-- Start of the arena that `alloc` works on first: swap when forced, primary otherwise. -/
def arena_start (s : State) (force_swap : Bool) : Nat :=
  if force_swap then s.swap_start else s.memory_start

/-- End of the arena that `alloc` works on first. -/
def arena_end (s : State) (force_swap : Bool) : Nat :=
  if force_swap then s.swap_end else s.memory_end

/-- Whether `alloc` may grow the selected arena: `swap_used < swap_size` (line 101) for the
swap arena, a granted `sbrk(size + header_size)` (line 91) for the primary arena. -/
def growth_permitted (s : State) (size : Nat) (force_swap : Bool) : Bool :=
  if force_swap then decide (s.swap_used < swap_size)
  else s.os_grants s.brk ((size + header_size) % 2 ^ 64)

/-- Write a little-endian 32-bit `int` at `a .. a + 3` (the stores `ints[i] = v` of `main`). -/
def store32 (mem : Mem) (a v : Nat) : Mem := fun x =>
  if x = a then v % 256
  else if x = a + 1 then v / 256 % 256
  else if x = a + 2 then v / 65536 % 256
  else if x = a + 3 then v / 16777216 % 256
  else mem x

/-- Read a little-endian 32-bit `int` at `a .. a + 3`. -/
def load32 (mem : Mem) (a : Nat) : Nat :=
  load8 mem a + 256 * (load8 mem (a + 1) + 256 * (load8 mem (a + 2) + 256 * load8 mem (a + 3)))

/-- The state left by a call that returned, `s` itself when the fuel ran out. -/
def state_of (r : Option (Nat × State)) (s : State) : State :=
  match r with
  | some (_, s1) => s1
  | none => s

/-- A freshly initialised allocator: break at 4096 (growable up to 8192), swap file mapped at
65536, all memory zero. -/
def demo_fresh : State := fresh 4096 65536 8192

/-- The state of `demo_fresh` after `alloc(16, true)` and `alloc(8, true)`: swap blocks at 65536
and 65568, both acquired. -/
def demo_two : State :=
  state_of (alloc 5 (state_of (alloc 5 demo_fresh 16 true) demo_fresh) 8 true) demo_fresh

/-- The state `demo_two` after `free(65552)`: the first swap block is free. -/
def demo_freed : State := free demo_two 65552

/-- The state `demo_freed` after `alloc(24, false)`: one acquired primary block at 4096. -/
def demo_both : State := state_of (alloc 5 demo_freed 24 false) demo_freed

/-- The state of `main` at line 146: `ints = swap_malloc<int>(12)` followed by the three
stores `ints[0] = 12`, `ints[1] = 32`, `ints[2] = 2845`. -/
def demo_main : State :=
  let s1 := state_of (alloc 5 demo_fresh 12 true) demo_fresh
  { s1 with mem := store32 (store32 (store32 s1.mem 65552 12) 65556 32) 65560 2845 }

/-- States reachable from `s0` by calls of `alloc` that return and by calls of `free`. -/
inductive Reachable (s0 : State) : State → Prop
  | init : Reachable s0 s0
  | alloc (s s1 : State) (fuel size p : Nat) (force_swap : Bool) :
      Reachable s0 s → manager.alloc fuel s size force_swap = some (p, s1) → Reachable s0 s1
  | free (s : State) (p : Nat) : Reachable s0 s → Reachable s0 (manager.free s p)

/-- The state of `demo_fresh` after `alloc(1000, true)`: one acquired swap block, and
`swap_used = 1016`. -/
def demo_1000 : State := state_of (alloc 5 demo_fresh 1000 true) demo_fresh

/-! ## Initialisation -/

theorem init_gives_fresh (brk mapped limit : Nat) (hb : brk ≠ invalid_memory)
    (hm : mapped ≠ invalid_memory) :
    (init_memory (boot brk limit)).bind (fun s => init_swap s mapped)
      = some (fresh brk mapped limit) := by
  have hz : (fun x => if mapped ≤ x ∧ x < mapped + swap_size then 0 else (0 : Nat))
      = fun _ => 0 := by
    funext x; split <;> rfl
  simp [init_memory, init_swap, boot, fresh, hb, hm, hz]

/-! ## Memory lemmas -/

theorem load8_lt (mem : Mem) (a : Nat) : load8 mem a < 256 := by
  unfold load8; omega

theorem load64_lt (mem : Mem) (a : Nat) : load64 mem a < 2 ^ 64 := by
  have h0 := load8_lt mem a
  have h1 := load8_lt mem (a + 1)
  have h2 := load8_lt mem (a + 2)
  have h3 := load8_lt mem (a + 3)
  have h4 := load8_lt mem (a + 4)
  have h5 := load8_lt mem (a + 5)
  have h6 := load8_lt mem (a + 6)
  have h7 := load8_lt mem (a + 7)
  unfold load64
  omega

theorem size_of_lt (mem : Mem) (h : Nat) : size_of mem h < 2 ^ 64 := load64_lt mem (h + 8)

theorem load8_store8 (mem : Mem) (a v x : Nat) :
    load8 (store8 mem a v) x = if x = a then v % 256 else load8 mem x := by
  unfold load8 store8
  split <;> simp

theorem load64_store8 (mem : Mem) (a v x : Nat) (h : a < x ∨ x + 8 ≤ a) :
    load64 (store8 mem a v) x = load64 mem x := by
  unfold load64
  simp only [load8_store8]
  have e0 : ¬ x = a := by omega
  have e1 : ¬ x + 1 = a := by omega
  have e2 : ¬ x + 2 = a := by omega
  have e3 : ¬ x + 3 = a := by omega
  have e4 : ¬ x + 4 = a := by omega
  have e5 : ¬ x + 5 = a := by omega
  have e6 : ¬ x + 6 = a := by omega
  have e7 : ¬ x + 7 = a := by omega
  simp only [e0, e1, e2, e3, e4, e5, e6, e7, if_false]

theorem load8_store64 (mem : Mem) (a v x : Nat) (h : x < a ∨ a + 8 ≤ x) :
    load8 (store64 mem a v) x = load8 mem x := by
  unfold load8 store64
  have e0 : ¬ x = a := by omega
  have e1 : ¬ x = a + 1 := by omega
  have e2 : ¬ x = a + 2 := by omega
  have e3 : ¬ x = a + 3 := by omega
  have e4 : ¬ x = a + 4 := by omega
  have e5 : ¬ x = a + 5 := by omega
  have e6 : ¬ x = a + 6 := by omega
  have e7 : ¬ x = a + 7 := by omega
  simp only [e0, e1, e2, e3, e4, e5, e6, e7, if_false]

theorem store64_other (mem : Mem) (a v x : Nat) (h : x < a ∨ a + 8 ≤ x) :
    store64 mem a v x = mem x := by
  unfold store64
  have e0 : ¬ x = a := by omega
  have e1 : ¬ x = a + 1 := by omega
  have e2 : ¬ x = a + 2 := by omega
  have e3 : ¬ x = a + 3 := by omega
  have e4 : ¬ x = a + 4 := by omega
  have e5 : ¬ x = a + 5 := by omega
  have e6 : ¬ x = a + 6 := by omega
  have e7 : ¬ x = a + 7 := by omega
  simp only [e0, e1, e2, e3, e4, e5, e6, e7, if_false]

theorem load64_store64_same (mem : Mem) (a v : Nat) :
    load64 (store64 mem a v) a = v % 2 ^ 64 := by
  unfold load64 load8 store64
  have e1 : ¬ a + 1 = a := by omega
  have e2 : ¬ a + 2 = a := by omega
  have e3 : ¬ a + 3 = a := by omega
  have e4 : ¬ a + 4 = a := by omega
  have e5 : ¬ a + 5 = a := by omega
  have e6 : ¬ a + 6 = a := by omega
  have e7 : ¬ a + 7 = a := by omega
  simp only [e1, e2, e3, e4, e5, e6, e7, if_false, if_true, Nat.add_right_cancel_iff,
    Nat.reduceEqDiff, OfNat.ofNat_ne_one, Nat.succ_ne_self]
  omega

theorem is_acquired_store8 (mem : Mem) (a v h : Nat) :
    is_acquired (store8 mem a v) h = if h = a then v % 256 else is_acquired mem h := by
  unfold is_acquired; exact load8_store8 mem a v h

theorem size_of_store8 (mem : Mem) (a v h : Nat) (hd : a < h + 8 ∨ h + 16 ≤ a) :
    size_of (store8 mem a v) h = size_of mem h := by
  unfold size_of; exact load64_store8 mem a v (h + 8) (by omega)

theorem is_acquired_write_header_same (mem : Mem) (h f n : Nat) :
    is_acquired (write_header mem h f n) h = f % 256 := by
  unfold is_acquired write_header
  rw [load8_store64 _ _ _ _ (by omega), load8_store8]
  simp

theorem size_of_write_header_same (mem : Mem) (h f n : Nat) :
    size_of (write_header mem h f n) h = n % 2 ^ 64 := by
  unfold size_of write_header
  exact load64_store64_same _ _ _

theorem write_header_other (mem : Mem) (h f n x : Nat) (hx : x < h ∨ h + 16 ≤ x) :
    write_header mem h f n x = mem x := by
  unfold write_header
  rw [store64_other _ _ _ _ (by omega)]
  unfold store8
  have : ¬ x = h := by omega
  simp [this]

theorem is_chain_le (mem : Mem) (e : Nat) :
    ∀ (hs : List Nat) (a : Nat), is_chain mem a e hs = true → a ≤ e := by
  intro hs
  induction hs with
  | nil => intro a h; simp [is_chain] at h; omega
  | cons x xs ih =>
    intro a h
    simp only [is_chain, Bool.and_eq_true, decide_eq_true_eq] at h
    have := ih _ h.2
    omega

theorem is_chain_mem (mem : Mem) (e : Nat) :
    ∀ (hs : List Nat) (a : Nat), is_chain mem a e hs = true →
      ∀ x ∈ hs, a ≤ x ∧ x + header_size + size_of mem x ≤ e := by
  intro hs
  induction hs with
  | nil => intro a _ x hx; simp at hx
  | cons y ys ih =>
    intro a h x hx
    simp only [is_chain, Bool.and_eq_true, decide_eq_true_eq] at h
    rcases List.mem_cons.1 hx with rfl | hx
    · have := is_chain_le mem e _ _ h.2
      rw [h.1]; exact ⟨le_refl _, this⟩
    · have := ih _ h.2 x hx
      exact ⟨by omega, this.2⟩

theorem get_block_loop_chain (mem : Mem) (e n : Nat) (he : e < 2 ^ 64) :
    ∀ (hs : List Nat) (a fuel : Nat), is_chain mem a e hs = true → hs.length < fuel →
      get_block_loop fuel mem a e n = some
        (match first_fit mem n hs with
          | none => (0, mem)
          | some h => (h + header_size + size_of mem h, store8 mem h 1)) := by
  intro hs
  induction hs with
  | nil =>
    intro a fuel h hf
    simp [is_chain] at h
    obtain ⟨f, rfl⟩ : ∃ f, fuel = f + 1 := ⟨fuel - 1, by simp at hf; omega⟩
    simp [get_block_loop, first_fit, h]
  | cons x xs ih =>
    intro a fuel h hf
    simp only [is_chain, Bool.and_eq_true, decide_eq_true_eq] at h
    obtain ⟨rfl, hc⟩ := h
    have hle := is_chain_le mem e _ _ hc
    obtain ⟨f, rfl⟩ : ∃ f, fuel = f + 1 := ⟨fuel - 1, by simp at hf; omega⟩
    have hlt : x < e := by unfold header_size at hle; omega
    unfold get_block_loop
    rw [if_pos hlt]
    by_cases hfit : is_acquired mem x = 0 ∧ size_of mem x ≥ n
    · rw [if_pos hfit]
      have : first_fit mem n (x :: xs) = some x := by
        simp [first_fit, List.find?, hfit]
      rw [this]
      simp only [size_of_store8 mem x 1 x (by omega)]
      unfold increment header_size
      unfold header_size at hle
      rw [Nat.mod_eq_of_lt (by omega : 16 + size_of mem x < 2 ^ 64)]
      rw [Nat.mod_eq_of_lt (by omega)]
      simp [Nat.add_assoc]
    · rw [if_neg hfit]
      have : first_fit mem n (x :: xs) = first_fit mem n xs := by
        simp [first_fit, List.find?, hfit]
      rw [this]
      have hinc : increment (increment x (size_of mem x)) header_size
          = x + header_size + size_of mem x := by
        unfold increment header_size
        unfold header_size at hle
        rw [Nat.mod_eq_of_lt (by omega), Nat.mod_eq_of_lt (by omega)]
        omega
      rw [hinc]
      exact ih _ f hc (by simp at hf; omega)

theorem first_fit_none {mem : Mem} {n : Nat} {hs : List Nat} :
    first_fit mem n hs = none ↔ ∀ h ∈ hs, ¬ (is_acquired mem h = 0 ∧ size_of mem h ≥ n) := by
  unfold first_fit
  simp [List.find?_eq_none]

theorem first_fit_some {mem : Mem} {n : Nat} {hs : List Nat} {h : Nat}
    (hf : first_fit mem n hs = some h) :
    h ∈ hs ∧ is_acquired mem h = 0 ∧ size_of mem h ≥ n := by
  unfold first_fit at hf
  have h1 := List.find?_some hf
  have h2 := List.mem_of_find?_eq_some hf
  simp at h1
  exact ⟨h2, h1⟩

theorem alloc_swap_path_chain (s : State) (size fuel : Nat) (sh : List Nat)
    (hc : is_chain s.mem s.swap_start s.swap_end sh = true) (he : s.swap_end < 2 ^ 64)
    (hf : sh.length < fuel) :
    alloc_swap_path fuel s size = some
      (match first_fit s.mem size sh with
        | some h => (h + header_size + size_of s.mem h, { s with mem := store8 s.mem h 1 })
        | none =>
          if s.swap_used ≥ swap_size then (0, s)
          else (increment s.swap_end header_size,
            { s with
              swap_end := increment s.swap_end ((size + header_size) % 2 ^ 64)
              mem := write_header s.mem s.swap_end 1 size
              swap_used := (s.swap_used + (header_size + size) % 2 ^ 64) % 2 ^ 64 })) := by
  unfold alloc_swap_path get_block
  rw [get_block_loop_chain s.mem s.swap_end size he sh s.swap_start fuel hc hf]
  cases hff : first_fit s.mem size sh with
  | none =>
    simp only [ne_eq, not_true_eq_false, if_false]
    split <;> rfl
  | some h =>
    have : h + header_size + size_of s.mem h ≠ 0 := by unfold header_size; omega
    simp only [ne_eq, this, not_false_eq_true, if_true]

theorem alloc_forced (fuel : Nat) (s : State) (size : Nat) :
    alloc fuel s size true = alloc_swap_path fuel s size := by
  simp [alloc]

theorem alloc_primary_chain (s : State) (size fuel : Nat) (ph : List Nat)
    (hc : is_chain s.mem s.memory_start s.memory_end ph = true) (he : s.memory_end < 2 ^ 64)
    (hf : ph.length < fuel) :
    alloc fuel s size false =
      (match first_fit s.mem size ph with
        | some h => some (h + header_size + size_of s.mem h, { s with mem := store8 s.mem h 1 })
        | none =>
          if s.os_grants s.brk ((size + header_size) % 2 ^ 64) = true ∧ s.brk ≠ invalid_memory then
            some (increment s.brk header_size,
              { s with
                brk := (s.brk + (size + header_size) % 2 ^ 64) % 2 ^ 64
                mem := write_header s.mem s.brk 1 size
                memory_end := increment s.brk ((size + header_size) % 2 ^ 64) })
          else if s.os_grants s.brk ((size + header_size) % 2 ^ 64) = true then
            alloc_swap_path fuel { s with brk := (s.brk + (size + header_size) % 2 ^ 64) % 2 ^ 64 } size
          else alloc_swap_path fuel s size) := by
  unfold alloc get_block
  simp only [Bool.not_false, if_true]
  rw [get_block_loop_chain s.mem s.memory_end size he ph s.memory_start fuel hc hf]
  cases hff : first_fit s.mem size ph with
  | none =>
    simp only [ne_eq, not_true_eq_false, if_false]
    unfold sbrk
    cases hg : s.os_grants s.brk ((size + header_size) % 2 ^ 64) with
    | false => simp [invalid_memory]
    | true =>
      by_cases hb : s.brk = invalid_memory
      · simp [hb]
      · simp [hb]
  | some h =>
    have : h + header_size + size_of s.mem h ≠ 0 := by unfold header_size; omega
    simp only [ne_eq, this, not_false_eq_true, if_true]

/-! ## Chains of blocks -/

theorem store8_other (mem : Mem) (a v x : Nat) (hx : x ≠ a) : store8 mem a v x = mem x := by
  unfold store8; simp [hx]

theorem is_chain_sep (mem : Mem) (e : Nat) :
    ∀ (hs : List Nat) (a : Nat), is_chain mem a e hs = true →
      ∀ x ∈ hs, ∀ y ∈ hs, x ≠ y →
        x + header_size + size_of mem x ≤ y ∨ y + header_size + size_of mem y ≤ x := by
  intro hs
  induction hs with
  | nil => intro a _ x hx; simp at hx
  | cons z zs ih =>
    intro a h x hx y hy hne
    simp only [is_chain, Bool.and_eq_true, decide_eq_true_eq] at h
    obtain ⟨rfl, hc⟩ := h
    rcases List.mem_cons.1 hx with hxz | hxz <;> rcases List.mem_cons.1 hy with hyz | hyz
    · exact absurd (hxz.trans hyz.symm) hne
    · left; rw [hxz]; exact (is_chain_mem mem e _ _ hc y hyz).1
    · right; rw [hyz]; exact (is_chain_mem mem e _ _ hc x hxz).1
    · exact ih _ hc x hxz y hyz hne

theorem is_chain_congr (mem mem1 : Mem) (e : Nat) :
    ∀ (hs : List Nat) (a : Nat), (∀ x ∈ hs, size_of mem1 x = size_of mem x) →
      is_chain mem1 a e hs = is_chain mem a e hs := by
  intro hs
  induction hs with
  | nil => intro a _; rfl
  | cons z zs ih =>
    intro a h
    simp only [is_chain]
    by_cases hz : z = a
    · subst hz
      rw [h z (List.mem_cons_self _ _), ih _ (fun x hx => h x (List.mem_cons_of_mem _ hx))]
    · simp [hz]

/-- Setting or clearing the flag of a header of a chain leaves the chain as it is. -/
theorem is_chain_store8 (mem : Mem) (a e : Nat) (hs : List Nat) (h v : Nat)
    (hc : is_chain mem a e hs = true) (hh : h ∈ hs) :
    (∀ x ∈ hs, size_of (store8 mem h v) x = size_of mem x) ∧
    is_chain (store8 mem h v) a e hs = true := by
  have hsz : ∀ x ∈ hs, size_of (store8 mem h v) x = size_of mem x := by
    intro x hx
    by_cases hxh : x = h
    · subst hxh; exact size_of_store8 mem x v x (by omega)
    · have := is_chain_sep mem e hs a hc x hx h hh hxh
      unfold header_size at this
      exact size_of_store8 mem h v x (by omega)
  exact ⟨hsz, by rw [is_chain_congr mem (store8 mem h v) e hs a hsz]; exact hc⟩

theorem alloc_swap_path_post (s : State) (size fuel : Nat) (sh : List Nat)
    (hs : is_chain s.mem s.swap_start s.swap_end sh = true) (hse : s.swap_end < 2 ^ 64)
    (hsize : size < 2 ^ 64) (hfuel : sh.length < fuel) :
    ∃ p s1, alloc_swap_path fuel s size = some (p, s1) ∧
      (p ≠ 0 →
        (is_acquired s1.mem (increment p (2 ^ 64 - header_size)) = 1 ∧
          size_of s1.mem (increment p (2 ^ 64 - header_size)) = size) ∨
        (∃ h ∈ sh, is_acquired s.mem h = 0 ∧ size_of s.mem h ≥ size ∧
          s1.mem = store8 s.mem h 1 ∧ is_acquired s1.mem h = 1 ∧
          size_of s1.mem h = size_of s.mem h)) := by
  rw [alloc_swap_path_chain s size fuel sh hs hse hfuel]
  cases hff : first_fit s.mem size sh with
  | none =>
    by_cases hfull : s.swap_used ≥ swap_size
    · exact ⟨0, s, by simp [hfull], fun h => absurd rfl h⟩
    · refine ⟨_, _, by rw [if_neg hfull], fun _ => Or.inl ?_⟩
      have hb : increment (increment s.swap_end header_size) (2 ^ 64 - header_size)
          = s.swap_end := by
        unfold increment header_size; omega
      rw [hb]
      refine ⟨?_, ?_⟩
      · show is_acquired (write_header s.mem s.swap_end 1 size) s.swap_end = 1
        rw [is_acquired_write_header_same]
      · show size_of (write_header s.mem s.swap_end 1 size) s.swap_end = size
        rw [size_of_write_header_same, Nat.mod_eq_of_lt hsize]
  | some h =>
    obtain ⟨hm, hfree, hfit⟩ := first_fit_some hff
    refine ⟨_, _, rfl, fun _ => Or.inr ⟨h, hm, hfree, hfit, rfl, ?_, ?_⟩⟩
    · show is_acquired (store8 s.mem h 1) h = 1
      rw [is_acquired_store8]; simp
    · show size_of (store8 s.mem h 1) h = size_of s.mem h
      exact size_of_store8 s.mem h 1 h (by omega)

/-- C1 (amended): on a state whose two arenas are block chains, `alloc` returns, and when the
returned address `p` is not null then either the header at `p - header_size` (computed as
`free` computes it) has `is_acquired = 1` and `size` equal to the requested size, or the call
reused a block: some header of an arena that was free with recorded size at least `size` now
has `is_acquired = 1`, its recorded size is unchanged and nothing else in memory changed. -/
theorem alloc_returns_block (s : State) (size fuel : Nat) (force_swap : Bool)
    (ph sh : List Nat)
    (hp : is_chain s.mem s.memory_start s.memory_end ph = true)
    (hs : is_chain s.mem s.swap_start s.swap_end sh = true)
    (hpe : s.memory_end < 2 ^ 64) (hbrk : s.brk < 2 ^ 64) (hse : s.swap_end < 2 ^ 64)
    (hsize : size < 2 ^ 64)
    (hfuel : ph.length < fuel ∧ sh.length < fuel) :
    ∃ p s1, alloc fuel s size force_swap = some (p, s1) ∧
      (p ≠ 0 →
        (is_acquired s1.mem (increment p (2 ^ 64 - header_size)) = 1 ∧
          size_of s1.mem (increment p (2 ^ 64 - header_size)) = size) ∨
        (∃ h ∈ ph ++ sh, is_acquired s.mem h = 0 ∧ size_of s.mem h ≥ size ∧
          s1.mem = store8 s.mem h 1 ∧ is_acquired s1.mem h = 1 ∧
          size_of s1.mem h = size_of s.mem h)) := by
  have widen : ∀ (s0 : State), s0.mem = s.mem →
      (∃ p s1, alloc_swap_path fuel s0 size = some (p, s1) ∧
        (p ≠ 0 →
          (is_acquired s1.mem (increment p (2 ^ 64 - header_size)) = 1 ∧
            size_of s1.mem (increment p (2 ^ 64 - header_size)) = size) ∨
          (∃ h ∈ sh, is_acquired s0.mem h = 0 ∧ size_of s0.mem h ≥ size ∧
            s1.mem = store8 s0.mem h 1 ∧ is_acquired s1.mem h = 1 ∧
            size_of s1.mem h = size_of s0.mem h))) →
      ∃ p s1, alloc_swap_path fuel s0 size = some (p, s1) ∧
        (p ≠ 0 →
          (is_acquired s1.mem (increment p (2 ^ 64 - header_size)) = 1 ∧
            size_of s1.mem (increment p (2 ^ 64 - header_size)) = size) ∨
          (∃ h ∈ ph ++ sh, is_acquired s.mem h = 0 ∧ size_of s.mem h ≥ size ∧
            s1.mem = store8 s.mem h 1 ∧ is_acquired s1.mem h = 1 ∧
            size_of s1.mem h = size_of s.mem h)) := by
    intro s0 hm ⟨p, s1, he, hpost⟩
    refine ⟨p, s1, he, fun hp0 => ?_⟩
    rcases hpost hp0 with hl | ⟨h, hh, h1, h2, h3, h4, h5⟩
    · exact Or.inl hl
    · rw [hm] at h1 h2 h3 h5
      exact Or.inr ⟨h, List.mem_append_right _ hh, h1, h2, h3, h4, h5⟩
  cases force_swap with
  | true =>
    rw [alloc_forced]
    exact widen s rfl (alloc_swap_path_post s size fuel sh hs hse hsize hfuel.2)
  | false =>
    rw [alloc_primary_chain s size fuel ph hp hpe hfuel.1]
    cases hff : first_fit s.mem size ph with
    | some h =>
      obtain ⟨hm, hfree, hfit⟩ := first_fit_some hff
      refine ⟨_, _, rfl, fun _ => Or.inr ⟨h, List.mem_append_left _ hm, hfree, hfit, rfl, ?_, ?_⟩⟩
      · show is_acquired (store8 s.mem h 1) h = 1
        rw [is_acquired_store8]; simp
      · show size_of (store8 s.mem h 1) h = size_of s.mem h
        exact size_of_store8 s.mem h 1 h (by omega)
    | none =>
      by_cases hg : s.os_grants s.brk ((size + header_size) % 2 ^ 64) = true ∧
          s.brk ≠ invalid_memory
      · refine ⟨_, _, by rw [if_pos hg], fun _ => Or.inl ?_⟩
        have hb : increment (increment s.brk header_size) (2 ^ 64 - header_size) = s.brk := by
          unfold increment header_size; omega
        rw [hb]
        refine ⟨?_, ?_⟩
        · show is_acquired (write_header s.mem s.brk 1 size) s.brk = 1
          rw [is_acquired_write_header_same]
        · show size_of (write_header s.mem s.brk 1 size) s.brk = size
          rw [size_of_write_header_same, Nat.mod_eq_of_lt hsize]
      · simp only [hg, if_false]
        split
        · exact widen _ rfl (alloc_swap_path_post _ size fuel sh hs hse hsize hfuel.2)
        · exact widen s rfl (alloc_swap_path_post s size fuel sh hs hse hsize hfuel.2)

/-- Instance for C1 on `demo_freed` (swap blocks at 65536, free, and 65568, acquired) for a
forced request of 8 bytes. -/
theorem alloc_returns_block_witness :
    ∃ p s1, alloc 5 demo_freed 8 true = some (p, s1) ∧
      (p ≠ 0 →
        (is_acquired s1.mem (increment p (2 ^ 64 - header_size)) = 1 ∧
          size_of s1.mem (increment p (2 ^ 64 - header_size)) = 8) ∨
        (∃ h ∈ [] ++ [65536, 65568], is_acquired demo_freed.mem h = 0 ∧
          size_of demo_freed.mem h ≥ 8 ∧
          s1.mem = store8 demo_freed.mem h 1 ∧ is_acquired s1.mem h = 1 ∧
          size_of s1.mem h = size_of demo_freed.mem h)) :=
  alloc_returns_block demo_freed 8 5 true [] [65536, 65568] (by decide) (by decide)
    (by decide) (by decide) (by decide) (by decide) (by decide)

/-- C1 (as stated, refuted): from the fresh state, `alloc(16, false)` returns 4112, `free(4112)`
releases the block, and `alloc(8, false)` then returns the non-null address 4128, yet the header
at `4128 - header_size = 4112` has `is_acquired = 0` and `size = 0`, not `1` and `8`. -/
theorem alloc_reuse_header_counterexample :
    ∃ s1 s3, alloc 5 demo_fresh 16 false = some (4112, s1) ∧
      alloc 5 (free s1 4112) 8 false = some (4128, s3) ∧
      4128 - header_size = 4112 ∧
      ¬ (is_acquired s3.mem 4112 = 1 ∧ size_of s3.mem 4112 = 8) ∧
      is_acquired s3.mem 4112 = 0 ∧ size_of s3.mem 4112 = 0 :=
  ⟨_, _, rfl, rfl, by decide, by decide, by decide, by decide⟩

/-- C2 (refuted on the code): on the fresh state `alloc(16, true)` returns `p = 65552`; after
`free(p)` the swap arena is the one-block chain `[65536]`, its block records 16 bytes and is the
first free block holding at least 8 bytes, and `alloc(8, true)` returns 65568, which is
`p + 16` and not `p`. -/
theorem free_then_alloc_other_address :
    ∃ s1 s3, alloc 5 demo_fresh 16 true = some (65552, s1) ∧
      is_chain (free s1 65552).mem (free s1 65552).swap_start (free s1 65552).swap_end [65536]
        = true ∧
      65536 + header_size = 65552 ∧
      size_of (free s1 65552).mem 65536 = 16 ∧
      first_fit (free s1 65552).mem 8 [65536] = some 65536 ∧
      alloc 5 (free s1 65552) 8 true = some (65568, s3) ∧
      65568 ≠ 65552 :=
  ⟨_, _, rfl, by decide, by decide, by decide, by decide, rfl, by decide⟩

/-- C3 (refuted on the code): on the fresh state `alloc(1000, true)` brings `swap_used` to 1016;
`alloc(100, true)` is then not refused although `1016 + 16 + 100 > 1024`: it carves, leaving
`swap_used = 1132 > swap_size` and `swap_end` beyond `swap_start + swap_size`. -/
theorem swap_carve_exceeds_capacity :
    ∃ s1 s2, alloc 5 demo_fresh 1000 true = some (65552, s1) ∧
      s1.swap_used = 1016 ∧
      alloc 5 s1 100 true = some (66568, s2) ∧
      s2.swap_used = 1132 ∧
      swap_size < s2.swap_used ∧
      s2.swap_start + swap_size < s2.swap_end :=
  ⟨_, _, rfl, by decide, rfl, by decide, by decide, by decide⟩

theorem no_chain_after_size_cleared (mem : Mem) (h1 : size_of mem 65536 = 0)
    (h2 : size_of mem 65552 = 0) : ∀ hs, is_chain mem 65536 65560 hs = false := by
  intro hs
  cases hs with
  | nil => simp [is_chain]
  | cons a t =>
    cases t with
    | nil => simp [is_chain, h1, header_size]
    | cons b u =>
      cases hc : is_chain mem 65536 65560 (a :: b :: u) with
      | false => rfl
      | true =>
        exfalso
        simp only [is_chain, Bool.and_eq_true, decide_eq_true_eq, h1, h2, header_size] at hc
        have := is_chain_le mem 65560 u _ hc.2.2
        omega

/-- C4 (refuted on the code): `alloc(8, true)` returns 65552; after `free(65552)` the next
`alloc(8, true)` returns 65560 and the swap arena is still the chain `[65536]`; `free(65560)`,
the release of an address that `alloc` returned and that was never freed before, clears the low
byte of the size field of the header at 65536, and afterwards no walk from `swap_start` in steps
of `header_size + size` lands on `swap_end`. -/
theorem free_of_reused_address_breaks_chain :
    ∃ s1 s3, alloc 5 demo_fresh 8 true = some (65552, s1) ∧
      alloc 5 (free s1 65552) 8 true = some (65560, s3) ∧
      is_chain s3.mem s3.swap_start s3.swap_end [65536] = true ∧
      size_of s3.mem 65536 = 8 ∧
      size_of (free s3 65560).mem 65536 = 0 ∧
      ∀ hs, is_chain (free s3 65560).mem (free s3 65560).swap_start (free s3 65560).swap_end hs
        = false :=
  ⟨_, _, rfl, rfl, by decide, by decide, by decide,
    no_chain_after_size_cleared _ (by decide) (by decide)⟩

theorem alloc_forced_full (s : State) (size fuel : Nat) (sh : List Nat)
    (hs : is_chain s.mem s.swap_start s.swap_end sh = true)
    (hse : s.swap_end < 2 ^ 64)
    (hfull : s.swap_used ≥ swap_size)
    (hnofit : ∀ h ∈ sh, is_acquired s.mem h = 0 → size_of s.mem h < size)
    (hfuel : sh.length < fuel) :
    alloc fuel s size true = some (0, s) := by
  rw [alloc_forced, alloc_swap_path_chain s size fuel sh hs hse hfuel]
  have hnone : first_fit s.mem size sh = none := by
    rw [first_fit_none]
    intro h hh ⟨h0, h1⟩
    have := hnofit h hh h0
    omega
  rw [hnone]
  simp only [hfull, if_true]

/-- C6: on a state whose two arenas are block chains, `alloc(size, false)` returns, and it
returns null exactly when no free block of the primary arena records at least `size` bytes, the
operating system refuses `sbrk(size + header_size)`, no free block of the swap arena records at
least `size` bytes, and `swap_used >= swap_size`. -/
theorem alloc_null_iff_exhausted (s : State) (size fuel : Nat) (ph sh : List Nat)
    (hp : is_chain s.mem s.memory_start s.memory_end ph = true)
    (hs : is_chain s.mem s.swap_start s.swap_end sh = true)
    (hpe : s.memory_end < 2 ^ 64)
    (hbrk : s.brk + header_size < 2 ^ 64)
    (hse : s.swap_end + header_size < 2 ^ 64)
    (hfuel : ph.length < fuel ∧ sh.length < fuel) :
    ∃ p s1, alloc fuel s size false = some (p, s1) ∧
      (p = 0 ↔
        ((∀ h ∈ ph, ¬ (is_acquired s.mem h = 0 ∧ size_of s.mem h ≥ size)) ∧
          s.os_grants s.brk ((size + header_size) % 2 ^ 64) = false ∧
          (∀ h ∈ sh, ¬ (is_acquired s.mem h = 0 ∧ size_of s.mem h ≥ size)) ∧
          s.swap_used ≥ swap_size)) := by
  rw [alloc_primary_chain s size fuel ph hp hpe hfuel.1]
  cases hff : first_fit s.mem size ph with
  | some h =>
    obtain ⟨hm, hfree, hfit⟩ := first_fit_some hff
    refine ⟨_, _, rfl, ?_⟩
    constructor
    · intro h0; unfold header_size at h0; omega
    · intro hall; exact absurd ⟨hfree, hfit⟩ (hall.1 h hm)
  | none =>
    have hnp := first_fit_none.1 hff
    have hbi : s.brk ≠ invalid_memory := by
      unfold invalid_memory; unfold header_size at hbrk; omega
    cases hg : s.os_grants s.brk ((size + header_size) % 2 ^ 64) with
    | true =>
      refine ⟨increment s.brk header_size, _, by rw [if_pos ⟨rfl, hbi⟩], ?_⟩
      constructor
      · intro h0; unfold increment header_size at h0; unfold header_size at hbrk; omega
      · intro hall; simp at hall
    | false =>
      simp only [Bool.false_eq_true, false_and, if_false]
      rw [alloc_swap_path_chain s size fuel sh hs (by omega) hfuel.2]
      cases hfs : first_fit s.mem size sh with
      | some h =>
        obtain ⟨hm, hfree, hfit⟩ := first_fit_some hfs
        refine ⟨_, _, rfl, ?_⟩
        constructor
        · intro h0; unfold header_size at h0; omega
        · intro hall; exact absurd ⟨hfree, hfit⟩ (hall.2.2.1 h hm)
      | none =>
        have hns := first_fit_none.1 hfs
        by_cases hfull : s.swap_used ≥ swap_size
        · exact ⟨0, s, by simp [hfull], fun _ => ⟨hnp, trivial, hns, hfull⟩, fun _ => rfl⟩
        · refine ⟨increment s.swap_end header_size, _, by rw [if_neg hfull], ?_⟩
          constructor
          · intro h0; unfold increment header_size at h0; unfold header_size at hse; omega
          · intro hall; exact absurd hall.2.2.2 hfull

/-- Instance for C6 on `demo_both` (one acquired primary block, two swap
blocks) for a request of 20 bytes. -/
theorem alloc_null_iff_exhausted_witness :
    ∃ p s1, alloc 5 demo_both 20 false = some (p, s1) ∧
      (p = 0 ↔
        ((∀ h ∈ [4096], ¬ (is_acquired demo_both.mem h = 0 ∧ size_of demo_both.mem h ≥ 20)) ∧
          demo_both.os_grants demo_both.brk ((20 + header_size) % 2 ^ 64) = false ∧
          (∀ h ∈ [65536, 65568],
            ¬ (is_acquired demo_both.mem h = 0 ∧ size_of demo_both.mem h ≥ 20)) ∧
          demo_both.swap_used ≥ swap_size)) :=
  alloc_null_iff_exhausted demo_both 20 5 [4096] [65536, 65568] (by decide) (by decide)
    (by decide) (by decide) (by decide) (by decide)

theorem alloc_swap_path_writes (s : State) (size fuel : Nat) (sh : List Nat)
    (hs : is_chain s.mem s.swap_start s.swap_end sh = true) (hse : s.swap_end < 2 ^ 64)
    (hfuel : sh.length < fuel) :
    ∃ p s1, alloc_swap_path fuel s size = some (p, s1) ∧
      s1.memory_start = s.memory_start ∧ s1.memory_end = s.memory_end ∧ s1.brk = s.brk ∧
      ∀ a, s1.mem a ≠ s.mem a →
        (a ∈ sh ∧ is_acquired s.mem a = 0) ∨
        (s.swap_end ≤ a ∧ a < s.swap_end + header_size) := by
  rw [alloc_swap_path_chain s size fuel sh hs hse hfuel]
  cases hff : first_fit s.mem size sh with
  | none =>
    dsimp only
    by_cases hfull : s.swap_used ≥ swap_size
    · rw [if_pos hfull]
      exact ⟨_, _, rfl, rfl, rfl, rfl, fun a ha => absurd rfl ha⟩
    · rw [if_neg hfull]
      refine ⟨_, _, rfl, rfl, rfl, rfl, fun a ha => Or.inr ?_⟩
      by_contra hout
      apply ha
      show write_header s.mem s.swap_end 1 size a = s.mem a
      exact write_header_other _ _ _ _ _ (by unfold header_size at hout; omega)
  | some h =>
    obtain ⟨hm, hfree, _⟩ := first_fit_some hff
    refine ⟨_, _, rfl, rfl, rfl, rfl, fun a ha => Or.inl ?_⟩
    by_cases hah : a = h
    · rw [hah]; exact ⟨hm, hfree⟩
    · exact absurd (store8_other s.mem h 1 a hah) ha

theorem alloc_writes (s : State) (size fuel : Nat) (force_swap : Bool) (ph sh : List Nat)
    (hp : is_chain s.mem s.memory_start s.memory_end ph = true)
    (hs : is_chain s.mem s.swap_start s.swap_end sh = true)
    (hbrk : s.brk = s.memory_end)
    (hpe : s.memory_end + header_size < 2 ^ 64) (hse : s.swap_end < 2 ^ 64)
    (hfuel : ph.length < fuel ∧ sh.length < fuel) :
    ∃ p s1, alloc fuel s size force_swap = some (p, s1) ∧
      ∀ a, s1.mem a ≠ s.mem a →
        (a ∈ ph ++ sh ∧ is_acquired s.mem a = 0) ∨
        (s.memory_end ≤ a ∧ a < s.memory_end + header_size) ∨
        (s.swap_end ≤ a ∧ a < s.swap_end + header_size) := by
  have hswap : ∃ p s1, alloc_swap_path fuel s size = some (p, s1) ∧
      ∀ a, s1.mem a ≠ s.mem a →
        (a ∈ ph ++ sh ∧ is_acquired s.mem a = 0) ∨
        (s.memory_end ≤ a ∧ a < s.memory_end + header_size) ∨
        (s.swap_end ≤ a ∧ a < s.swap_end + header_size) := by
    obtain ⟨p, s1, he, _, _, _, hw⟩ := alloc_swap_path_writes s size fuel sh hs hse hfuel.2
    refine ⟨p, s1, he, fun a ha => ?_⟩
    rcases hw a ha with ⟨hm, hf⟩ | hr
    · exact Or.inl ⟨List.mem_append_right _ hm, hf⟩
    · exact Or.inr (Or.inr hr)
  cases force_swap with
  | true => rw [alloc_forced]; exact hswap
  | false =>
    rw [alloc_primary_chain s size fuel ph hp (by omega) hfuel.1]
    cases hff : first_fit s.mem size ph with
    | some h =>
      obtain ⟨hm, hfree, _⟩ := first_fit_some hff
      refine ⟨_, _, rfl, fun a ha => Or.inl ?_⟩
      by_cases hah : a = h
      · rw [hah]; exact ⟨List.mem_append_left _ hm, hfree⟩
      · exact absurd (store8_other s.mem h 1 a hah) ha
    | none =>
      dsimp only
      have hbi : s.brk ≠ invalid_memory := by
        rw [hbrk]; unfold invalid_memory; unfold header_size at hpe; omega
      cases hg : s.os_grants s.brk ((size + header_size) % 2 ^ 64) with
      | true =>
        rw [if_pos ⟨rfl, hbi⟩]
        refine ⟨_, _, rfl, fun a ha => Or.inr (Or.inl ?_)⟩
        by_contra hout
        apply ha
        show write_header s.mem s.brk 1 size a = s.mem a
        rw [hbrk]
        exact write_header_other _ _ _ _ _ (by unfold header_size at hout; omega)
      | false =>
        simp only [Bool.false_eq_true, false_and, if_false]
        exact hswap

/-- C10: on a state whose two arenas are block chains lying apart, with the break at the end
of the primary arena, `alloc` returns, every byte it changes is the `is_acquired` byte of a
free block's header or lies in the 16 bytes at the old end of an arena (the new header), and
every payload byte of every block that existed before the call is unchanged. -/
theorem alloc_keeps_payload (s : State) (size fuel : Nat) (force_swap : Bool)
    (ph sh : List Nat)
    (hp : is_chain s.mem s.memory_start s.memory_end ph = true)
    (hs : is_chain s.mem s.swap_start s.swap_end sh = true)
    (hbrk : s.brk = s.memory_end)
    (hpe : s.memory_end + header_size < 2 ^ 64) (hse : s.swap_end < 2 ^ 64)
    (hapart : s.memory_end + header_size ≤ s.swap_start ∨
      s.swap_end + header_size ≤ s.memory_start)
    (hfuel : ph.length < fuel ∧ sh.length < fuel) :
    ∃ p s1, alloc fuel s size force_swap = some (p, s1) ∧
      (∀ a, s1.mem a ≠ s.mem a →
        (a ∈ ph ++ sh ∧ is_acquired s.mem a = 0) ∨
        (s.memory_end ≤ a ∧ a < s.memory_end + header_size) ∨
        (s.swap_end ≤ a ∧ a < s.swap_end + header_size)) ∧
      (∀ h ∈ ph ++ sh, ∀ a, h + header_size ≤ a → a < h + header_size + size_of s.mem h →
        s1.mem a = s.mem a) := by
  obtain ⟨p, s1, he, hw⟩ := alloc_writes s size fuel force_swap ph sh hp hs hbrk hpe hse hfuel
  refine ⟨p, s1, he, hw, ?_⟩
  intro h hh a ha1 ha2
  by_contra hne
  have hple := is_chain_le s.mem s.memory_end ph s.memory_start hp
  have hsle := is_chain_le s.mem s.swap_end sh s.swap_start hs
  have hbound : (s.memory_start ≤ h ∧ h + header_size + size_of s.mem h ≤ s.memory_end) ∨
      (s.swap_start ≤ h ∧ h + header_size + size_of s.mem h ≤ s.swap_end) := by
    rcases List.mem_append.1 hh with hh | hh
    · exact Or.inl (is_chain_mem s.mem _ ph _ hp h hh)
    · exact Or.inr (is_chain_mem s.mem _ sh _ hs h hh)
  rcases hw a hne with ⟨hm, _⟩ | hr | hr
  · have hane : a ≠ h := by unfold header_size at ha1; omega
    rcases List.mem_append.1 hm with hma | hma <;> rcases List.mem_append.1 hh with hh | hh
    · have := is_chain_sep s.mem _ ph _ hp a hma h hh hane
      unfold header_size at *; omega
    · have h1 := is_chain_mem s.mem _ ph _ hp a hma
      have h2 := is_chain_mem s.mem _ sh _ hs h hh
      unfold header_size at *; omega
    · have h1 := is_chain_mem s.mem _ sh _ hs a hma
      have h2 := is_chain_mem s.mem _ ph _ hp h hh
      unfold header_size at *; omega
    · have := is_chain_sep s.mem _ sh _ hs a hma h hh hane
      unfold header_size at *; omega
  · unfold header_size at *; omega
  · unfold header_size at *; omega

/-- Instance for C10 on the state of `main` at line 146, together with the
round trip of `main`: after `swap_malloc<char>(16)` and `swap_malloc<char>(1)` the three `int`
slots at 65552, 65556 and 65560 still hold 12, 32 and 2845. -/
theorem alloc_keeps_payload_witness :
    (∃ p s1, alloc 5 demo_main 16 true = some (p, s1) ∧
      (∀ a, s1.mem a ≠ demo_main.mem a →
        (a ∈ [] ++ [65536] ∧ is_acquired demo_main.mem a = 0) ∨
        (demo_main.memory_end ≤ a ∧ a < demo_main.memory_end + header_size) ∨
        (demo_main.swap_end ≤ a ∧ a < demo_main.swap_end + header_size)) ∧
      (∀ h ∈ [] ++ [65536], ∀ a, h + header_size ≤ a →
        a < h + header_size + size_of demo_main.mem h → s1.mem a = demo_main.mem a)) ∧
    (∃ s1 s2, alloc 5 demo_fresh 12 true = some (65552, s1) ∧
      demo_main.mem = store32 (store32 (store32 s1.mem 65552 12) 65556 32) 65560 2845 ∧
      ∃ s3, alloc 5 demo_main 16 true = some (65580, s2) ∧
        alloc 5 s2 1 true = some (65612, s3) ∧
        load32 s3.mem 65552 = 12 ∧ load32 s3.mem 65556 = 32 ∧ load32 s3.mem 65560 = 2845) :=
  ⟨alloc_keeps_payload demo_main 16 5 true [] [65536] (by decide) (by decide) (by decide)
      (by decide) (by decide) (by decide) (by decide),
    _, _, rfl, rfl, _, rfl, rfl, by decide, by decide, by decide⟩

/-! ## Further facts on chains and on the search -/

theorem is_chain_sorted (mem : Mem) (e : Nat) :
    ∀ (hs : List Nat) (a : Nat), is_chain mem a e hs = true → hs.Pairwise (fun x y => x < y) := by
  intro hs
  induction hs with
  | nil => intro a _; exact List.Pairwise.nil
  | cons z zs ih =>
    intro a h
    simp only [is_chain, Bool.and_eq_true, decide_eq_true_eq] at h
    obtain ⟨rfl, hc⟩ := h
    refine List.Pairwise.cons (fun y hy => ?_) (ih _ hc)
    have := (is_chain_mem mem e zs _ hc y hy).1
    unfold header_size at this
    omega

theorem first_fit_split (mem : Mem) (n h : Nat) (post : List Nat)
    (hfit : is_acquired mem h = 0 ∧ size_of mem h ≥ n) :
    ∀ pre : List Nat, (∀ x ∈ pre, ¬ (is_acquired mem x = 0 ∧ size_of mem x ≥ n)) →
      first_fit mem n (pre ++ h :: post) = some h := by
  intro pre
  induction pre with
  | nil => intro _; simp [first_fit, List.find?, hfit]
  | cons x xs ih =>
    intro hpre
    have hx := hpre x (List.mem_cons_self _ _)
    have := ih (fun y hy => hpre y (List.mem_cons_of_mem _ hy))
    unfold first_fit at this ⊢
    simp only [List.cons_append, List.find?, hx, decide_False]
    exact this

/-- C11: on every freshly initialised state whose swap mapping lies inside the address space,
the first `alloc(1024 - H, true)` returns the payload address `mapped + H` and brings `swap_used`
to exactly `swap_size = 1024`; the second `alloc(1024 - H, true)` finds no block (the search
returns null without change) and, `swap_used >= swap_size` holding, returns null and leaves the
state as it is. -/
theorem exhaustion_scenario (brk mapped limit fuel : Nat)
    (hm : mapped + swap_size < 2 ^ 64) (hfuel : 2 ≤ fuel) :
    ∃ s1, alloc fuel (fresh brk mapped limit) (swap_size - header_size) true
        = some (mapped + header_size, s1) ∧
      s1.swap_used = swap_size ∧
      get_block fuel s1.mem s1.swap_start s1.swap_end (swap_size - header_size)
        = some (0, s1.mem) ∧
      s1.swap_used ≥ swap_size ∧
      alloc fuel s1 (swap_size - header_size) true = some (0, s1) := by
  have h1 := alloc_swap_path_chain (fresh brk mapped limit) (swap_size - header_size) fuel []
    (by simp [is_chain, fresh]) (by unfold swap_size at hm; simp only [fresh]; omega)
    (by simp; omega)
  have hn : first_fit (fresh brk mapped limit).mem (swap_size - header_size) [] = none := rfl
  rw [hn] at h1
  have hlt : ¬ (fresh brk mapped limit).swap_used ≥ swap_size := by
    simp [fresh, swap_size]
  dsimp only at h1
  rw [if_neg hlt] at h1
  rw [alloc_forced, h1]
  have hend : increment mapped ((swap_size - header_size + header_size) % 2 ^ 64)
      = mapped + swap_size := by
    unfold increment swap_size header_size at *; omega
  have hptr : increment mapped header_size = mapped + header_size := by
    unfold increment swap_size header_size at *; omega
  have hchain : is_chain (write_header (fresh brk mapped limit).mem mapped 1
      (swap_size - header_size)) mapped (mapped + swap_size) [mapped] = true := by
    simp only [is_chain, Bool.and_eq_true, decide_eq_true_eq, true_and]
    rw [size_of_write_header_same]
    unfold swap_size header_size; omega
  have hacq : ∀ h ∈ [mapped], is_acquired (write_header (fresh brk mapped limit).mem mapped 1
      (swap_size - header_size)) h = 0 →
      size_of (write_header (fresh brk mapped limit).mem mapped 1
        (swap_size - header_size)) h < swap_size - header_size := by
    intro h hh h0
    rw [List.mem_singleton.1 hh, is_acquired_write_header_same] at h0
    simp at h0
  have hnone : first_fit (write_header (fresh brk mapped limit).mem mapped 1
      (swap_size - header_size)) (swap_size - header_size) [mapped] = none := by
    rw [first_fit_none]
    intro h hh ⟨h0, h1⟩
    have := hacq h hh h0
    omega
  have hgb : get_block fuel (write_header (fresh brk mapped limit).mem mapped 1
      (swap_size - header_size)) mapped (mapped + swap_size) (swap_size - header_size)
      = some (0, write_header (fresh brk mapped limit).mem mapped 1
        (swap_size - header_size)) := by
    unfold get_block
    rw [get_block_loop_chain _ _ _ (by omega) [mapped] mapped fuel hchain (by simp; omega),
      hnone]
  have hptr2 : increment (fresh brk mapped limit).swap_end header_size
      = mapped + header_size := hptr
  rw [hptr2]
  refine ⟨_, rfl, ?_, ?_, ?_, ?_⟩
  · show (0 + (header_size + (swap_size - header_size)) % 2 ^ 64) % 2 ^ 64 = swap_size
    unfold swap_size header_size; omega
  · show get_block fuel _ mapped (increment mapped _) _ = _
    rw [hend]
    exact hgb
  · show (0 + (header_size + (swap_size - header_size)) % 2 ^ 64) % 2 ^ 64 ≥ swap_size
    unfold swap_size header_size; omega
  · apply alloc_forced_full _ _ fuel [mapped]
    · show is_chain _ mapped (increment mapped _) _ = true
      rw [hend]; exact hchain
    · show increment mapped _ < 2 ^ 64
      rw [hend]; omega
    · show (0 + (header_size + (swap_size - header_size)) % 2 ^ 64) % 2 ^ 64 ≥ swap_size
      unfold swap_size header_size; omega
    · exact hacq
    · simp; omega

/-- Instance for C11 on `fresh 4096 65536 8192`, the state named `demo_fresh`. -/
theorem exhaustion_scenario_witness :
    ∃ s1, alloc 5 (fresh 4096 65536 8192) (swap_size - header_size) true
        = some (65536 + header_size, s1) ∧
      s1.swap_used = swap_size ∧
      get_block 5 s1.mem s1.swap_start s1.swap_end (swap_size - header_size)
        = some (0, s1.mem) ∧
      s1.swap_used ≥ swap_size ∧
      alloc 5 s1 (swap_size - header_size) true = some (0, s1) :=
  exhaustion_scenario 4096 65536 8192 5 (by decide) (by decide)

/-- C13: on an arena that is a block chain `hs`, `get_block` returns; it returns null exactly
when no block is both free and of recorded size at least `min_size`, and then memory is
unchanged; and when `h` is the first block of the chain (every block before it lies at a lower
address, every block after it at a higher one) that is free with recorded size at least
`min_size`, the only change of memory is that the flag of `h` becomes 1: no other block, later
or better fitting, is marked. -/
theorem get_block_first_fit (mem : Mem) (a e n fuel : Nat) (hs : List Nat)
    (hc : is_chain mem a e hs = true) (he : e < 2 ^ 64) (hfuel : hs.length < fuel) :
    ∃ r mem1, get_block fuel mem a e n = some (r, mem1) ∧
      (r = 0 ↔ ∀ h ∈ hs, ¬ (is_acquired mem h = 0 ∧ size_of mem h ≥ n)) ∧
      ((∀ h ∈ hs, ¬ (is_acquired mem h = 0 ∧ size_of mem h ≥ n)) → mem1 = mem) ∧
      (∀ pre h post, hs = pre ++ h :: post →
        (∀ x ∈ pre, ¬ (is_acquired mem x = 0 ∧ size_of mem x ≥ n)) →
        is_acquired mem h = 0 ∧ size_of mem h ≥ n →
        (∀ x ∈ pre, x < h) ∧ (∀ y ∈ post, h < y) ∧
        mem1 = store8 mem h 1 ∧ is_acquired mem1 h = 1 ∧
        (∀ x ∈ hs, x ≠ h → is_acquired mem1 x = is_acquired mem x) ∧
        (∀ x ∈ hs, size_of mem1 x = size_of mem x)) := by
  unfold get_block
  rw [get_block_loop_chain mem e n he hs a fuel hc hfuel]
  cases hff : first_fit mem n hs with
  | none =>
    have hno := first_fit_none.1 hff
    refine ⟨0, mem, rfl, ⟨fun _ => hno, fun _ => rfl⟩, fun _ => rfl, ?_⟩
    intro pre h post hsplit _ hfit
    exact absurd hfit (hno h (by rw [hsplit]; simp))
  | some h0 =>
    obtain ⟨hm0, hfit0⟩ := first_fit_some hff
    refine ⟨_, _, rfl, ⟨?_, ?_⟩, ?_, ?_⟩
    · intro hz; unfold header_size at hz; omega
    · intro hall; exact absurd hfit0 (hall h0 hm0)
    · intro hall; exact absurd hfit0 (hall h0 hm0)
    · intro pre h post hsplit hpre hfit
      have hh : h = h0 := by
        have := first_fit_split mem n h post hfit pre hpre
        rw [← hsplit, hff] at this
        exact (Option.some.inj this).symm
      subst hh
      have hsorted := is_chain_sorted mem e hs a hc
      rw [hsplit, List.pairwise_append] at hsorted
      have hst := is_chain_store8 mem a e hs h 1 hc hm0
      refine ⟨fun x hx => hsorted.2.2 x hx h (List.mem_cons_self _ _),
        fun y hy => (List.pairwise_cons.1 hsorted.2.1).1 y hy, rfl, ?_, ?_, hst.1⟩
      · rw [is_acquired_store8]; simp
      · intro x _ hne
        rw [is_acquired_store8, if_neg hne]

/-- Instance for C13 on the swap arena of `demo_freed` (a free block of 16 bytes at 65536, then
an acquired block of 8 bytes at 65568) for `min_size = 8`. -/
theorem get_block_first_fit_witness :
    ∃ r mem1, get_block 5 demo_freed.mem 65536 65592 8 = some (r, mem1) ∧
      (r = 0 ↔ ∀ h ∈ [65536, 65568],
        ¬ (is_acquired demo_freed.mem h = 0 ∧ size_of demo_freed.mem h ≥ 8)) ∧
      ((∀ h ∈ [65536, 65568],
        ¬ (is_acquired demo_freed.mem h = 0 ∧ size_of demo_freed.mem h ≥ 8)) →
        mem1 = demo_freed.mem) ∧
      (∀ pre h post, [65536, 65568] = pre ++ h :: post →
        (∀ x ∈ pre, ¬ (is_acquired demo_freed.mem x = 0 ∧ size_of demo_freed.mem x ≥ 8)) →
        is_acquired demo_freed.mem h = 0 ∧ size_of demo_freed.mem h ≥ 8 →
        (∀ x ∈ pre, x < h) ∧ (∀ y ∈ post, h < y) ∧
        mem1 = store8 demo_freed.mem h 1 ∧ is_acquired mem1 h = 1 ∧
        (∀ x ∈ [65536, 65568], x ≠ h → is_acquired mem1 x = is_acquired demo_freed.mem x) ∧
        (∀ x ∈ [65536, 65568], size_of mem1 x = size_of demo_freed.mem x)) :=
  get_block_first_fit demo_freed.mem 65536 65592 8 5 [65536, 65568] (by decide) (by decide)
    (by decide)

/-- C14 (amended): when the selected arena is a block chain without a fitting free block,
growth is permitted, `end + header_size + size` stays in the 64-bit range and, for the swap
arena, so does `swap_used + header_size + size`, `alloc` returns `old end + header_size`, the memory after the call is the
old memory with the header `{1, size}` written at the old end, the arena end is
`old end + header_size + size`, and `swap_used` grows by exactly `header_size + size` for the
swap arena and is unchanged for the primary arena. -/
theorem carve_postcondition (s : State) (size fuel : Nat) (force_swap : Bool) (hs : List Nat)
    (hchain : is_chain s.mem (arena_start s force_swap) (arena_end s force_swap) hs = true)
    (hnofit : ∀ h ∈ hs, ¬ (is_acquired s.mem h = 0 ∧ size_of s.mem h ≥ size))
    (hgrow : growth_permitted s size force_swap = true)
    (hbrk : s.brk = s.memory_end)
    (hend : arena_end s force_swap + header_size + size < 2 ^ 64)
    (hused : force_swap = true → s.swap_used + header_size + size < 2 ^ 64)
    (hfuel : hs.length < fuel) :
    ∃ s1, alloc fuel s size force_swap = some (arena_end s force_swap + header_size, s1) ∧
      s1.mem = write_header s.mem (arena_end s force_swap) 1 size ∧
      is_acquired s1.mem (arena_end s force_swap) = 1 ∧
      size_of s1.mem (arena_end s force_swap) = size ∧
      arena_end s1 force_swap = arena_end s force_swap + header_size + size ∧
      s1.swap_used = (if force_swap then s.swap_used + header_size + size else s.swap_used) := by
  have hnone : first_fit s.mem size hs = none := first_fit_none.2 hnofit
  have hhdr : ∀ e, is_acquired (write_header s.mem e 1 size) e = 1 ∧
      size_of (write_header s.mem e 1 size) e = size := by
    intro e
    refine ⟨by rw [is_acquired_write_header_same], ?_⟩
    rw [size_of_write_header_same, Nat.mod_eq_of_lt (by omega)]
  cases force_swap with
  | true =>
    simp only [arena_start, arena_end, if_true] at hchain hend ⊢
    have hlt : ¬ s.swap_used ≥ swap_size := by
      simp [growth_permitted] at hgrow; omega
    have hu := hused rfl
    rw [alloc_forced, alloc_swap_path_chain s size fuel hs hchain (by omega) hfuel, hnone]
    dsimp only
    rw [if_neg hlt]
    have h1 : increment s.swap_end header_size = s.swap_end + header_size := by
      unfold increment header_size at *; omega
    rw [h1]
    refine ⟨_, rfl, rfl, (hhdr _).1, (hhdr _).2, ?_, ?_⟩
    · show increment s.swap_end ((size + header_size) % 2 ^ 64) = _
      unfold increment header_size at *; omega
    · show (s.swap_used + (header_size + size) % 2 ^ 64) % 2 ^ 64 = _
      unfold header_size at *; omega
  | false =>
    simp only [arena_start, arena_end, Bool.false_eq_true, if_false] at hchain hend ⊢
    have hg : s.os_grants s.brk ((size + header_size) % 2 ^ 64) = true := by
      simpa [growth_permitted] using hgrow
    have hbi : s.brk ≠ invalid_memory := by
      rw [hbrk]; unfold invalid_memory; unfold header_size at hend; omega
    rw [alloc_primary_chain s size fuel hs hchain (by omega) hfuel, hnone]
    dsimp only
    rw [if_pos ⟨hg, hbi⟩]
    have h1 : increment s.brk header_size = s.memory_end + header_size := by
      rw [hbrk]; unfold increment header_size at *; omega
    rw [h1]
    refine ⟨_, rfl, by rw [← hbrk], by rw [← hbrk]; exact (hhdr _).1,
      by rw [← hbrk]; exact (hhdr _).2, ?_, rfl⟩
    show increment s.brk ((size + header_size) % 2 ^ 64) = _
    rw [hbrk]
    unfold increment header_size at *; omega

/-- Instance for C14 on `demo_freed` for a forced request of 20 bytes: the free swap block
records only 16 bytes, so the request is carved at the old end 65592. -/
theorem carve_postcondition_witness :
    ∃ s1, alloc 5 demo_freed 20 true = some (arena_end demo_freed true + header_size, s1) ∧
      s1.mem = write_header demo_freed.mem (arena_end demo_freed true) 1 20 ∧
      is_acquired s1.mem (arena_end demo_freed true) = 1 ∧
      size_of s1.mem (arena_end demo_freed true) = 20 ∧
      arena_end s1 true = arena_end demo_freed true + header_size + 20 ∧
      s1.swap_used = (if true then demo_freed.swap_used + header_size + 20
        else demo_freed.swap_used) :=
  carve_postcondition demo_freed 20 5 true [65536, 65568] (by decide) (by decide) (by decide)
    (by decide) (by decide) (by decide) (by decide)

/-- C14 (as stated, refuted): in `demo_1000` the swap arena is the chain `[65536]` of one
acquired block, `swap_used = 1016 < swap_size`, and for `size = 2 ^ 64 - 1016` the sum
`header_size + size` does not overflow 64 bits; yet `alloc(size, true)` leaves
`swap_used = 16` and `swap_end = 65552`, not the old values 1016 and 66552 increased by
`header_size + size`. -/
theorem carve_wraps_counterexample :
    ∃ s2, is_chain demo_1000.mem demo_1000.swap_start demo_1000.swap_end [65536] = true ∧
      (∀ h ∈ [65536], ¬ (is_acquired demo_1000.mem h = 0 ∧
        size_of demo_1000.mem h ≥ 2 ^ 64 - 1016)) ∧
      header_size + (2 ^ 64 - 1016) < 2 ^ 64 ∧
      growth_permitted demo_1000 (2 ^ 64 - 1016) true = true ∧
      demo_1000.swap_used = 1016 ∧ demo_1000.swap_end = 66552 ∧
      alloc 5 demo_1000 (2 ^ 64 - 1016) true = some (66568, s2) ∧
      s2.swap_used = 16 ∧ s2.swap_end = 65552 ∧
      s2.swap_used ≠ demo_1000.swap_used + (header_size + (2 ^ 64 - 1016)) ∧
      s2.swap_end ≠ demo_1000.swap_end + (header_size + (2 ^ 64 - 1016)) :=
  ⟨_, by decide, by decide, by decide, by decide, by decide, by decide, rfl, by decide,
    by decide, by decide, by decide⟩

theorem is_chain_split (mem : Mem) (e h : Nat) (post : List Nat) :
    ∀ (pre : List Nat) (a : Nat), is_chain mem a e (pre ++ h :: post) = true →
      is_chain mem (h + header_size + size_of mem h) e post = true := by
  intro pre
  induction pre with
  | nil =>
    intro a hc
    simp only [List.nil_append, is_chain, Bool.and_eq_true, decide_eq_true_eq] at hc
    rw [hc.1]; exact hc.2
  | cons x xs ih =>
    intro a hc
    simp only [List.cons_append, is_chain, Bool.and_eq_true, decide_eq_true_eq] at hc
    exact ih _ hc.2

/-- C15: on an arena that is a block chain `hs`, `get_block` returns; an unsuccessful call
leaves memory unchanged; a successful call changes only the `is_acquired` byte of the claimed
block, a block that was free with recorded size at least `min_size`, and that recorded size is
kept whatever `min_size` is; in both cases every block keeps its recorded size and the arena is
the same chain of the same blocks; and `alloc(min_size, true)` on a state with this swap arena
returns the same address with `swap_start`, `swap_end`, `swap_used` and all other globals
unchanged. -/
theorem reused_blocks_never_split (mem : Mem) (a e n fuel : Nat) (hs : List Nat)
    (hc : is_chain mem a e hs = true) (he : e < 2 ^ 64) (hfuel : hs.length < fuel) :
    ∃ r mem1, get_block fuel mem a e n = some (r, mem1) ∧
      (r = 0 → mem1 = mem) ∧
      (r ≠ 0 → ∃ h ∈ hs, is_acquired mem h = 0 ∧ size_of mem h ≥ n ∧
        mem1 = store8 mem h 1 ∧ (∀ x, x ≠ h → mem1 x = mem x) ∧
        size_of mem1 h = size_of mem h) ∧
      (∀ x ∈ hs, size_of mem1 x = size_of mem x) ∧
      is_chain mem1 a e hs = true ∧
      (∀ s : State, s.mem = mem → s.swap_start = a → s.swap_end = e → r ≠ 0 →
        alloc fuel s n true = some (r, { s with mem := mem1 })) := by
  unfold get_block
  rw [get_block_loop_chain mem e n he hs a fuel hc hfuel]
  cases hff : first_fit mem n hs with
  | none =>
    exact ⟨0, mem, rfl, fun _ => rfl, fun h => absurd rfl h, fun _ _ => rfl, hc,
      fun _ _ _ _ h => absurd rfl h⟩
  | some h =>
    obtain ⟨hm, hfree, hfit⟩ := first_fit_some hff
    have hst := is_chain_store8 mem a e hs h 1 hc hm
    refine ⟨_, _, rfl, ?_, ?_, hst.1, hst.2, ?_⟩
    · intro hz; unfold header_size at hz; omega
    · intro _
      exact ⟨h, hm, hfree, hfit, rfl, fun x hx => store8_other mem h 1 x hx, hst.1 h hm⟩
    · intro s hmem hstart hend _
      subst hmem hstart hend
      rw [alloc_forced, alloc_swap_path_chain s n fuel hs hc he hfuel, hff]

/-- Instance for C15 on the swap arena of `demo_freed`: a request of 8 bytes claims the free
block of 16 bytes at 65536, which keeps its 16 bytes. -/
theorem reused_blocks_never_split_witness :
    ∃ r mem1, get_block 5 demo_freed.mem 65536 65592 8 = some (r, mem1) ∧
      (r = 0 → mem1 = demo_freed.mem) ∧
      (r ≠ 0 → ∃ h ∈ [65536, 65568], is_acquired demo_freed.mem h = 0 ∧
        size_of demo_freed.mem h ≥ 8 ∧
        mem1 = store8 demo_freed.mem h 1 ∧ (∀ x, x ≠ h → mem1 x = demo_freed.mem x) ∧
        size_of mem1 h = size_of demo_freed.mem h) ∧
      (∀ x ∈ [65536, 65568], size_of mem1 x = size_of demo_freed.mem x) ∧
      is_chain mem1 65536 65592 [65536, 65568] = true ∧
      (∀ s : State, s.mem = demo_freed.mem → s.swap_start = 65536 → s.swap_end = 65592 →
        r ≠ 0 → alloc 5 s 8 true = some (r, { s with mem := mem1 })) :=
  reused_blocks_never_split demo_freed.mem 65536 65592 8 5 [65536, 65568] (by decide)
    (by decide) (by decide)

/-- C16: on an arena that is a block chain, when `h` is the first block that is free with
recorded size `s` at least `min_size`, `get_block` returns `h + header_size + s` and sets the
flag of `h`; that address is where the rest of the chain starts (the next block's header, or the
arena end when `h` is the last block), and it differs from `h + header_size`, the address the
carve path returns for a header at `h`, whenever `s > 0`. -/
theorem reuse_returns_past_payload (mem : Mem) (a e n fuel h : Nat) (pre post : List Nat)
    (hc : is_chain mem a e (pre ++ h :: post) = true) (he : e < 2 ^ 64)
    (hpre : ∀ x ∈ pre, ¬ (is_acquired mem x = 0 ∧ size_of mem x ≥ n))
    (hfit : is_acquired mem h = 0 ∧ size_of mem h ≥ n)
    (hfuel : (pre ++ h :: post).length < fuel) :
    get_block fuel mem a e n = some (h + header_size + size_of mem h, store8 mem h 1) ∧
    is_chain mem (h + header_size + size_of mem h) e post = true ∧
    (post = [] → h + header_size + size_of mem h = e) ∧
    (∀ y rest, post = y :: rest → h + header_size + size_of mem h = y) ∧
    (size_of mem h > 0 → h + header_size + size_of mem h ≠ h + header_size) := by
  have hsplit := is_chain_split mem e h post pre a hc
  refine ⟨?_, hsplit, ?_, ?_, fun hpos => by omega⟩
  · unfold get_block
    rw [get_block_loop_chain mem e n he _ a fuel hc hfuel,
      first_fit_split mem n h post hfit pre hpre]
  · intro hp
    rw [hp] at hsplit
    simpa [is_chain] using hsplit
  · intro y rest hp
    rw [hp] at hsplit
    simp only [is_chain, Bool.and_eq_true, decide_eq_true_eq] at hsplit
    exact hsplit.1.symm

/-- Instance for C16 on the swap arena of `demo_freed`: the free block at 65536 records 16
bytes, and a request of 8 bytes gets 65568, the header of the next block. -/
theorem reuse_returns_past_payload_witness :
    get_block 5 demo_freed.mem 65536 65592 8
      = some (65536 + header_size + size_of demo_freed.mem 65536, store8 demo_freed.mem 65536 1) ∧
    65536 + header_size + size_of demo_freed.mem 65536 = 65568 :=
  ⟨(reuse_returns_past_payload demo_freed.mem 65536 65592 8 5 65536 [] [65568] (by decide)
      (by decide) (by decide) (by decide) (by decide)).1,
    (reuse_returns_past_payload demo_freed.mem 65536 65592 8 5 65536 [] [65568] (by decide)
      (by decide) (by decide) (by decide) (by decide)).2.2.2.1 65568 [] rfl⟩

/-- C17 (refuted on the code): `alloc(32, true)` returns `p = 65552` and `alloc(16, true)`
returns `q = 65600`, whose header is at 65584; after `free(p)`, `alloc(32, true)` returns
`r = 65584`.  The addresses `q` (16 bytes) and `r` (32 bytes) are both returned and not freed,
and `[r, r + 32)` contains the header of `q` and all of `[q, q + 16)`. -/
theorem reused_block_overlaps_live_block :
    ∃ s1 s2 s3, alloc 5 demo_fresh 32 true = some (65552, s1) ∧
      alloc 5 s1 16 true = some (65600, s2) ∧
      alloc 5 (free s2 65552) 32 true = some (65584, s3) ∧
      is_chain s3.mem s3.swap_start s3.swap_end [65536, 65584] = true ∧
      is_acquired s3.mem 65584 = 1 ∧ 65584 + header_size = 65600 ∧
      ¬ (65584 + 32 ≤ 65600 ∨ 65600 + 16 ≤ 65584) ∧
      (65584 ≤ 65584 ∧ 65584 < 65584 + 32) :=
  ⟨_, _, _, rfl, rfl, rfl, by decide, by decide, by decide, by decide, by decide⟩

/-! ## Swap accounting -/

theorem alloc_swap_path_fields (fuel : Nat) (s : State) (size p : Nat) (s1 : State)
    (h : alloc_swap_path fuel s size = some (p, s1)) :
    s1.swap_start = s.swap_start ∧
    ((s1.swap_end = s.swap_end ∧ s1.swap_used = s.swap_used) ∨
      (s1.swap_end = increment s.swap_end ((size + header_size) % 2 ^ 64) ∧
        s1.swap_used = (s.swap_used + (header_size + size) % 2 ^ 64) % 2 ^ 64)) := by
  unfold alloc_swap_path at h
  cases hg : get_block fuel s.mem s.swap_start s.swap_end size with
  | none => rw [hg] at h; simp at h
  | some r =>
    obtain ⟨block, mem1⟩ := r
    rw [hg] at h
    dsimp only at h
    split at h
    · injection h with h; injection h with _ h2; subst h2
      exact ⟨rfl, Or.inl ⟨rfl, rfl⟩⟩
    · split at h
      · injection h with h; injection h with _ h2; subst h2
        exact ⟨rfl, Or.inl ⟨rfl, rfl⟩⟩
      · injection h with h; injection h with _ h2; subst h2
        exact ⟨rfl, Or.inr ⟨rfl, rfl⟩⟩

theorem alloc_swap_fields (fuel : Nat) (s : State) (size p : Nat) (force_swap : Bool)
    (s1 : State) (h : alloc fuel s size force_swap = some (p, s1)) :
    s1.swap_start = s.swap_start ∧
    ((s1.swap_end = s.swap_end ∧ s1.swap_used = s.swap_used) ∨
      (s1.swap_end = increment s.swap_end ((size + header_size) % 2 ^ 64) ∧
        s1.swap_used = (s.swap_used + (header_size + size) % 2 ^ 64) % 2 ^ 64)) := by
  cases force_swap with
  | true =>
    rw [alloc_forced] at h
    exact alloc_swap_path_fields fuel s size p s1 h
  | false =>
    unfold alloc at h
    simp only [Bool.not_false, if_true] at h
    cases hg : get_block fuel s.mem s.memory_start s.memory_end size with
    | none => rw [hg] at h; simp at h
    | some r =>
      obtain ⟨block, mem1⟩ := r
      rw [hg] at h
      dsimp only at h
      split at h
      · injection h with h; injection h with _ h2; subst h2
        exact ⟨rfl, Or.inl ⟨rfl, rfl⟩⟩
      · split at h
        · injection h with h; injection h with _ h2; subst h2
          unfold sbrk
          split <;> exact ⟨rfl, Or.inl ⟨rfl, rfl⟩⟩
        · have := alloc_swap_path_fields fuel _ size p s1 h
          unfold sbrk at this
          split at this <;> exact this

/-- C18 (amended): in every state reachable from a state with `swap_start = swap_end` and
`swap_used = 0` by calls of `alloc` and `free`, `swap_start` is the initial one and
`swap_end - swap_start = swap_used` modulo `2 ^ 64`; `free` leaves `swap_used` and `swap_start`
as they are; `alloc` leaves `swap_start` as it is and does not lower `swap_used` when
`swap_used + header_size + size` stays in the 64-bit range. -/
theorem swap_accounting (s0 s : State) (h0 : s0.swap_start = s0.swap_end)
    (hu : s0.swap_used = 0) (hb : s0.swap_start < 2 ^ 64) (hr : Reachable s0 s) :
    s.swap_start = s0.swap_start ∧
    s.swap_end = (s.swap_start + s.swap_used) % 2 ^ 64 ∧
    (s.swap_end + 2 ^ 64 - s.swap_start) % 2 ^ 64 = s.swap_used ∧
    (∀ p, (free s p).swap_used = s.swap_used ∧ (free s p).swap_start = s.swap_start) ∧
    (∀ fuel size force_swap p s1, alloc fuel s size force_swap = some (p, s1) →
      s1.swap_start = s.swap_start ∧
      (s.swap_used + header_size + size < 2 ^ 64 → s.swap_used ≤ s1.swap_used)) := by
  have inv : s.swap_start = s0.swap_start ∧
      s.swap_end = (s.swap_start + s.swap_used) % 2 ^ 64 ∧ s.swap_used < 2 ^ 64 := by
    induction hr with
    | init =>
      refine ⟨rfl, ?_, by omega⟩
      rw [hu, ← h0]; omega
    | alloc s s1 fuel size p force_swap _ ha ih =>
      obtain ⟨h1, h2⟩ := alloc_swap_fields fuel s size p force_swap s1 ha
      obtain ⟨i1, i2, i3⟩ := ih
      rcases h2 with ⟨e1, e2⟩ | ⟨e1, e2⟩
      · rw [h1, e1, e2]; exact ⟨i1, i2, i3⟩
      · rw [h1, e1, e2]
        refine ⟨i1, ?_, by omega⟩
        unfold increment header_size
        rw [i2]
        omega
    | free s p _ ih => exact ih
  obtain ⟨i1, i2, i3⟩ := inv
  refine ⟨i1, i2, ?_, fun _ => ⟨rfl, rfl⟩, ?_⟩
  · rw [i1] at i2 ⊢
    omega
  · intro fuel size force_swap p s1 ha
    obtain ⟨h1, h2⟩ := alloc_swap_fields fuel s size p force_swap s1 ha
    refine ⟨h1, fun hno => ?_⟩
    rcases h2 with ⟨_, e2⟩ | ⟨_, e2⟩
    · omega
    · rw [e2]; unfold header_size at *; omega

/-- Instance for C18 on `demo_freed`, reached from `demo_fresh` by `alloc(16, true)`,
`alloc(8, true)` and `free(65552)`. -/
theorem swap_accounting_witness :
    demo_freed.swap_start = demo_fresh.swap_start ∧
    demo_freed.swap_end = (demo_freed.swap_start + demo_freed.swap_used) % 2 ^ 64 ∧
    (demo_freed.swap_end + 2 ^ 64 - demo_freed.swap_start) % 2 ^ 64 = demo_freed.swap_used ∧
    (∀ p, (free demo_freed p).swap_used = demo_freed.swap_used ∧
      (free demo_freed p).swap_start = demo_freed.swap_start) ∧
    (∀ fuel size force_swap p s1, alloc fuel demo_freed size force_swap = some (p, s1) →
      s1.swap_start = demo_freed.swap_start ∧
      (demo_freed.swap_used + header_size + size < 2 ^ 64 →
        demo_freed.swap_used ≤ s1.swap_used)) :=
  swap_accounting demo_fresh demo_freed (by decide) (by decide) (by decide)
    (Reachable.free _ 65552
      (Reachable.alloc _ _ 5 8 65584 true
        (Reachable.alloc _ _ 5 16 65552 true Reachable.init rfl) rfl))

/-- C18 (as stated, refuted): from the fresh state `alloc(984, true)` reaches a state with
`swap_used = 1000`, and `alloc(2 ^ 64 - 17, true)` then reaches a state with `swap_used = 999`:
`swap_used` has decreased. -/
theorem swap_used_decreases_counterexample :
    ∃ s1 s2, alloc 5 demo_fresh 984 true = some (65552, s1) ∧
      alloc 5 s1 (2 ^ 64 - 17) true = some (66552, s2) ∧
      Reachable demo_fresh s1 ∧ Reachable demo_fresh s2 ∧
      s1.swap_used = 1000 ∧ s2.swap_used = 999 ∧ s2.swap_used < s1.swap_used :=
  ⟨_, _, rfl, rfl, Reachable.alloc _ _ 5 984 65552 true Reachable.init rfl,
    Reachable.alloc _ _ 5 (2 ^ 64 - 17) 66552 true
      (Reachable.alloc _ _ 5 984 65552 true Reachable.init rfl) rfl,
    by decide, by decide, by decide⟩

/-! ## Termination of the scan -/

end manager
